import Mathlib

/-!
Shallow embedding of `tic_tac_toe/SimpleNNQPlayerTF2.py` (class `NNQPlayerTF2`).

The board/game engine (`Board`, `GameResult`), the `Player` interface and the
TensorFlow network (`QNetwork`) are external collaborators of this module; only
the interface facts the agent relies on are modelled, following the spec's
description of those collaborators.  Real-valued quantities (probabilities,
Q-values, rewards) are embedded as rationals `ℚ`; the agent's code performs no
arithmetic on them other than copying, comparison (argmax) and one
multiplication, so `ℚ` is a faithful carrier.

The neural network's `predict` is embedded as an explicit oracle function
(feature vector → (probabilities, q-values)); theorems quantify over it.
-/

namespace TicTacToe

/-- Modelled from the spec: the agent's side marker; `new_game(side)` receives
either `CROSS` or `NAUGHT` (the two player markers of the external board). -/
inductive Side where
  | cross
  | naught
deriving DecidableEq, Repr

/-- Modelled from the spec: a board cell marker is one of
current-player-mark, opponent-mark, empty (`CROSS`, `NAUGHT`, `EMPTY`). -/
inductive Cell where
  | empty
  | cross
  | naught
deriving DecidableEq, Repr

/-- The cell marker laid down by a given side. -/
def Side.cell : Side → Cell
  | .cross => Cell.cross
  | .naught => Cell.naught

/-- Modelled from the spec: the external `Board.other_side(side)` static helper. -/
def Side.other_side : Side → Side
  | .cross => Side.naught
  | .naught => Side.cross

/-- Modelled from the spec: the external `GameResult` enum, one of
{CROSS_WIN, NAUGHT_WIN, DRAW, (in-progress)}. -/
inductive GameResult where
  | notFinished
  | crossWin
  | naughtWin
  | draw
deriving DecidableEq, Repr

/-- The `BOARD_SIZE` constant from the external board module: 9 cells (the source's
docstring fixes the feature vector at 27 = 3 × 9 bits). -/
def BOARD_SIZE : Nat := 9

/-- Modelled from the spec: the external `Board` collaborator, as consumed by
the agent: a read-only `state` sequence of per-cell markers and an
`is_legal(action_index)` predicate.  (The board's own `move` mutation and win
detection are external and not consumed by the agent's state transitions.) -/
structure Board where
  state : List Cell
  is_legal : Nat → Bool

/-- One pending `QNetwork.fit(inputs, targets)` invocation, recorded instead of
executed (the network update itself is external). -/
structure FitCall where
  inputs : List (List Nat)
  targets : List (List ℚ)
deriving DecidableEq, Repr

/-- The mutable state of a `NNQPlayerTF2` instance: reward parameters, the
assigned side, and the four per-episode trajectory logs.  The `training` flag
and `reward_discount`, `win_value`, `draw_value`, `loss_value` come from the
constructor. -/
structure NNQPlayerTF2 where
  reward_discount : ℚ
  win_value : ℚ
  draw_value : ℚ
  loss_value : ℚ
  side : Side
  board_position_log : List (List Cell)
  action_log : List Nat
  next_max_log : List ℚ
  values_log : List (List ℚ)
  training : Bool
deriving DecidableEq, Repr

namespace NNQPlayerTF2

/-- Encoder `board_state_to_nn_input`: the 3N-bit feature vector — own-piece
indicators, then opponent-piece indicators, then empty-cell indicators
(`np.array([...,...,...]).reshape(-1)` flattens row-major, i.e. concatenates
the three indicator rows). -/
def board_state_to_nn_input (side : Side) (state : List Cell) : List Nat :=
  (state.map (fun c => if c = side.cell then 1 else 0)) ++
    (state.map (fun c => if c = side.other_side.cell then 1 else 0)) ++
    (state.map (fun c => if c = Cell.empty then 1 else 0))

/-- Transition `new_game(side)`: store the side, clear the four logs. -/
def new_game (p : NNQPlayerTF2) (side : Side) : NNQPlayerTF2 :=
  { p with
    side := side
    board_position_log := []
    action_log := []
    next_max_log := []
    values_log := [] }

/-- The masking loop in `move`:
`for index, p in enumerate(qvalues): if not board.is_legal(index): probs[index] = -1`.
The loop runs over the indices of `qvalues` (length `qlen`) and overwrites
entries of `probs`. -/
def maskIllegal (legal : Nat → Bool) (qlen : Nat) (probs : List ℚ) : List ℚ :=
  (List.range qlen).foldl
    (fun ps index => if legal index then ps else ps.set index (-1)) probs

/-- Scan loop of `np.argmax`: index of the first occurrence of the maximum value
(linear scan, updating only on a strictly greater element). -/
def argmaxAux : List ℚ → ℚ → Nat → Nat → Nat
  | [], _, _, best => best
  | x :: xs, bv, i, best =>
      if bv < x then argmaxAux xs x (i + 1) i else argmaxAux xs bv (i + 1) best

/-- Embedding of `np.argmax` on a list (the source applies it to the masked probability
vector, which is nonempty; on `[]` we return 0). -/
def argmax : List ℚ → Nat
  | [] => 0
  | x :: xs => argmaxAux xs x 1 0

/-- Transition `move(board)`, with the network's prediction for the encoded state passed
in explicitly as `probs`, `qvalues` (the output of `get_probs`, i.e. of
`QNetwork.predict`, an external computation).  Returns the updated agent state
and the selected move; the final `board.move(move, side)` delegation and its
`(res, finished)` passthrough are external.  `np.copy(qvalues)` is the
identity on immutable lists. -/
def move (p : NNQPlayerTF2) (board : Board) (probs qvalues : List ℚ) :
    NNQPlayerTF2 × Nat :=
  let board_position_log := p.board_position_log ++ [board.state]
  let masked := maskIllegal board.is_legal qvalues.length probs
  let mv := argmax masked
  let next_max_log :=
    if p.action_log.length > 0 then p.next_max_log ++ [qvalues.getD mv 0]
    else p.next_max_log
  let action_log := p.action_log ++ [mv]
  let values_log := p.values_log ++ [qvalues]
  ({ p with
      board_position_log := board_position_log
      action_log := action_log
      next_max_log := next_max_log
      values_log := values_log }, mv)

/-- Embedding of `calculate_targets`: for each recorded step `i`, copy `values_log[i]` and
overwrite coordinate `action_log[i]` with `reward_discount * next_max_log[i]`. -/
def calculate_targets (p : NNQPlayerTF2) : List (List ℚ) :=
  (List.range p.action_log.length).map (fun i =>
    (p.values_log.getD i []).set (p.action_log.getD i 0)
      (p.reward_discount * p.next_max_log.getD i 0))

/-- The tail of `final_result` after the reward is determined: append the
reward to `next_max_log`; if training, compute targets and record the
`fit` invocation (the weight update itself is external). -/
def finalResultWith (p : NNQPlayerTF2) (reward : ℚ) :
    NNQPlayerTF2 × Option FitCall :=
  let p' := { p with next_max_log := p.next_max_log ++ [reward] }
  if p.training then
    let targets := calculate_targets p'
    let nn_input := p'.board_position_log.map
      (fun x => board_state_to_nn_input p'.side x)
    (p', some { inputs := nn_input, targets := targets })
  else
    (p', none)

/-- Transition `final_result(result)`: map the outcome to a reward via the side-dependent
conditional chain; on an unmapped outcome raise `ValueError` — embedded as
`Except.error` carrying the agent state at raise time, which is the unmodified
input state since the chain performs only reads before raising. -/
def final_result (p : NNQPlayerTF2) (result : GameResult) :
    Except NNQPlayerTF2 (NNQPlayerTF2 × Option FitCall) :=
  if (result = GameResult.naughtWin ∧ p.side = Side.naught) ∨
      (result = GameResult.crossWin ∧ p.side = Side.cross) then
    Except.ok (finalResultWith p p.win_value)
  else if (result = GameResult.naughtWin ∧ p.side = Side.cross) ∨
      (result = GameResult.crossWin ∧ p.side = Side.naught) then
    Except.ok (finalResultWith p p.loss_value)
  else if result = GameResult.draw then
    Except.ok (finalResultWith p p.draw_value)
  else
    Except.error p

end NNQPlayerTF2

/-- One step of an episode as seen by the agent: the board presented to
`move`, and the network's prediction `(probs, qvalues)` for the encoded state. -/
structure StepInput where
  board : Board
  probs : List ℚ
  qvalues : List ℚ

/-- The move `move` selects on a step: argmax of the masked probabilities. -/
def StepInput.chosen (s : StepInput) : Nat :=
  NNQPlayerTF2.argmax
    (NNQPlayerTF2.maskIllegal s.board.is_legal s.qvalues.length s.probs)

/-- The bootstrap value a step contributes for the previous step:
`qvalues[move]` of this step. -/
def StepInput.boot (s : StepInput) : ℚ :=
  s.qvalues.getD s.chosen 0

/-- Run a sequence of `move` calls (each with its prediction) from a state. -/
def runMoves (p : NNQPlayerTF2) (steps : List StepInput) : NNQPlayerTF2 :=
  steps.foldl (fun q s => (q.move s.board s.probs s.qvalues).1) p

/-! Concrete sample data, used to evaluate the definitions on closed inputs. -/

/-- A freshly constructed sample agent (integer-valued parameters, so that
concrete evaluations reduce). -/
def demoPlayer : NNQPlayerTF2 :=
  { reward_discount := 2
    win_value := 1
    draw_value := 0
    loss_value := -1
    side := Side.cross
    board_position_log := []
    action_log := []
    next_max_log := []
    values_log := []
    training := true }

/-- A sample board: cells 0 and 1 occupied, actions 2–8 legal. -/
def demoBoard1 : Board :=
  { state := [Cell.cross, Cell.naught, Cell.empty, Cell.empty, Cell.empty,
              Cell.empty, Cell.empty, Cell.empty, Cell.empty]
    is_legal := fun i => decide (2 ≤ i ∧ i < 9) }

/-- A sample board: cells 0–2 occupied, actions 3–8 legal. -/
def demoBoard2 : Board :=
  { state := [Cell.cross, Cell.naught, Cell.cross, Cell.empty, Cell.empty,
              Cell.empty, Cell.empty, Cell.empty, Cell.empty]
    is_legal := fun i => decide (3 ≤ i ∧ i < 9) }

/-- Sample network probabilities for the first sample step (ties at indices
2 and 3). -/
def demoProbs1 : List ℚ := [1, 0, 1, 1, 0, 0, 0, 0, 0]

/-- Sample network Q-values for the first sample step. -/
def demoQ1 : List ℚ := [0, 1, 2, 3, 4, 5, 6, 7, 8]

/-- Sample network probabilities for the second sample step. -/
def demoProbs2 : List ℚ := [0, 0, 0, 0, 1, 0, 0, 0, 0]

/-- Sample network Q-values for the second sample step. -/
def demoQ2 : List ℚ := [10, 11, 12, 13, 14, 15, 16, 17, 18]

/-- First sample episode step. -/
def demoStep1 : StepInput :=
  { board := demoBoard1, probs := demoProbs1, qvalues := demoQ1 }

/-- Second sample episode step. -/
def demoStep2 : StepInput :=
  { board := demoBoard2, probs := demoProbs2, qvalues := demoQ2 }

/-- A sample two-step episode. -/
def demoSteps : List StepInput := [demoStep1, demoStep2]

/-- An agent state with populated logs, as after a completed two-step episode. -/
def demoLogged : NNQPlayerTF2 :=
  { demoPlayer with
    action_log := [2, 4]
    next_max_log := [14, 0]
    values_log := [demoQ1, demoQ2] }

/-- The sample agent with training disabled. -/
def demoPlayerNoTrain : NNQPlayerTF2 := { demoPlayer with training := false }

/-- The training-disabled sample agent after `final_result(DRAW)`: only the
terminal reward is appended. -/
def demoNoTrainEnd : NNQPlayerTF2 :=
  { demoPlayerNoTrain with
    next_max_log := [demoPlayerNoTrain.draw_value] }

/-- Outcome of running the two-step sample episode to completion:
`new_game(CROSS)`, two `move` calls, then `final_result(CROSS_WIN)`. -/
def demoEpisodeEnd : Except NNQPlayerTF2 (NNQPlayerTF2 × Option FitCall) :=
  (runMoves (demoPlayer.new_game Side.cross) demoSteps).final_result
    GameResult.crossWin

/-- The agent state produced by the completed sample episode. -/
def demoEpisodeState : NNQPlayerTF2 :=
  (demoEpisodeEnd.toOption.map Prod.fst).getD demoPlayer

/-- The fit call produced by the completed sample episode. -/
def demoEpisodeFit : Option FitCall :=
  (demoEpisodeEnd.toOption.map Prod.snd).getD none

/-! General lemmas about the embedded list operations. -/

theorem getD_set (l : List ℚ) (i j : Nat) (v d : ℚ) :
    (l.set i v).getD j d = if i = j ∧ j < l.length then v else l.getD j d := by
  simp only [List.getD_eq_getElem?_getD, List.getElem?_set]
  by_cases h : i = j
  · subst h
    by_cases hl : i < l.length <;> simp [hl, List.getElem?_eq_none, Nat.le_of_not_lt]
  · simp [h]

namespace NNQPlayerTF2

theorem maskIllegal_succ (legal : Nat → Bool) (n : Nat) (probs : List ℚ) :
    maskIllegal legal (n + 1) probs =
      (if legal n then maskIllegal legal n probs
       else (maskIllegal legal n probs).set n (-1)) := by
  unfold maskIllegal
  rw [List.range_succ, List.foldl_append]
  simp [List.foldl]

theorem maskIllegal_length (legal : Nat → Bool) (n : Nat) (probs : List ℚ) :
    (maskIllegal legal n probs).length = probs.length := by
  induction n with
  | zero => rfl
  | succ n ih => rw [maskIllegal_succ]; split <;> simp [ih]

theorem maskIllegal_getD (legal : Nat → Bool) (n : Nat) (probs : List ℚ)
    (j : Nat) (d : ℚ) :
    (maskIllegal legal n probs).getD j d =
      if j < n ∧ legal j = false ∧ j < probs.length then -1
      else probs.getD j d := by
  induction n with
  | zero => simp [maskIllegal]
  | succ n ih =>
    rw [maskIllegal_succ]
    by_cases hl : legal n
    · rw [if_pos hl, ih]
      have hiff : (j < n + 1 ∧ legal j = false ∧ j < probs.length) ↔
          (j < n ∧ legal j = false ∧ j < probs.length) := by
        constructor
        · rintro ⟨h1, h2, h3⟩
          refine ⟨?_, h2, h3⟩
          rcases Nat.lt_succ_iff_lt_or_eq.mp h1 with h | h
          · exact h
          · rw [h, hl] at h2; cases h2
        · rintro ⟨h1, h2, h3⟩
          exact ⟨Nat.lt_succ_of_lt h1, h2, h3⟩
      simp only [hiff]
    · have hlf : legal n = false := Bool.eq_false_iff.mpr hl
      rw [if_neg hl, getD_set, maskIllegal_length, ih]
      by_cases hnj : n = j
      · subst hnj
        by_cases hlen : n < probs.length
        · simp [hlen, hlf, Nat.lt_succ_self]
        · simp [hlen, Nat.lt_irrefl]
      · have hiff : (j < n + 1 ∧ legal j = false ∧ j < probs.length) ↔
            (j < n ∧ legal j = false ∧ j < probs.length) := by
          constructor
          · rintro ⟨h1, h2, h3⟩
            refine ⟨?_, h2, h3⟩
            rcases Nat.lt_succ_iff_lt_or_eq.mp h1 with h | h
            · exact h
            · exact absurd h.symm hnj
          · rintro ⟨h1, h2, h3⟩
            exact ⟨Nat.lt_succ_of_lt h1, h2, h3⟩
        simp only [hiff]
        simp [hnj]

theorem argmaxAux_spec (xs : List ℚ) :
    ∀ (pre : List ℚ) (bv : ℚ) (best : Nat),
      best < pre.length →
      (pre ++ xs).getD best 0 = bv →
      (∀ k, k < pre.length → (pre ++ xs).getD k 0 ≤ bv) →
      (∀ k, k < best → (pre ++ xs).getD k 0 < bv) →
      argmaxAux xs bv pre.length best < (pre ++ xs).length ∧
        (∀ k, k < (pre ++ xs).length →
          (pre ++ xs).getD k 0 ≤
            (pre ++ xs).getD (argmaxAux xs bv pre.length best) 0) ∧
        (∀ k, k < argmaxAux xs bv pre.length best →
          (pre ++ xs).getD k 0 <
            (pre ++ xs).getD (argmaxAux xs bv pre.length best) 0) := by
  induction xs with
  | nil =>
    intro pre bv best hbest hbv hub hlt
    simp only [argmaxAux, List.append_nil] at *
    refine ⟨hbest, ?_, ?_⟩
    · intro k hk
      rw [hbv]; exact hub k hk
    · intro k hk
      rw [hbv]; exact hlt k hk
  | cons x xs ih =>
    intro pre bv best hbest hbv hub hlt
    have hl : pre ++ x :: xs = (pre ++ [x]) ++ xs := by simp
    have hlen : (pre ++ [x]).length = pre.length + 1 := by simp
    have hx : ((pre ++ [x]) ++ xs).getD pre.length 0 = x := by
      have h1 : pre.length < (pre ++ [x]).length := by simp
      rw [List.getD_eq_getElem?_getD, List.getElem?_append_left h1,
        List.getElem?_append_right (le_refl pre.length)]
      simp
    by_cases hcmp : bv < x
    · have harg : argmaxAux (x :: xs) bv pre.length best =
          argmaxAux xs x (pre.length + 1) pre.length := by
        simp [argmaxAux, hcmp]
      rw [hl, harg, ← hlen]
      apply ih (pre ++ [x]) x pre.length
      · simp
      · exact hx
      · intro k hk
        rw [hlen] at hk
        rcases Nat.lt_succ_iff_lt_or_eq.mp hk with h | h
        · have := hub k h
          rw [hl] at this
          exact le_of_lt (lt_of_le_of_lt this hcmp)
        · rw [h, hx]
      · intro k hk
        have := hub k hk
        rw [hl] at this
        exact lt_of_le_of_lt this hcmp
    · have harg : argmaxAux (x :: xs) bv pre.length best =
          argmaxAux xs bv (pre.length + 1) best := by
        simp [argmaxAux, hcmp]
      rw [hl, harg, ← hlen]
      apply ih (pre ++ [x]) bv best
      · rw [hlen]; exact Nat.lt_succ_of_lt hbest
      · rw [← hl]; exact hbv
      · intro k hk
        rw [hlen] at hk
        rcases Nat.lt_succ_iff_lt_or_eq.mp hk with h | h
        · have := hub k h; rw [hl] at this; exact this
        · rw [h, hx]; exact le_of_not_lt hcmp
      · intro k hk
        have := hlt k hk; rw [hl] at this; exact this

theorem argmax_spec (l : List ℚ) (h : l ≠ []) :
    argmax l < l.length ∧
      (∀ k, k < l.length → l.getD k 0 ≤ l.getD (argmax l) 0) ∧
      (∀ k, k < argmax l → l.getD k 0 < l.getD (argmax l) 0) := by
  cases l with
  | nil => exact absurd rfl h
  | cons x xs =>
    have hmain := argmaxAux_spec xs [x] x 0 (by simp) (by simp)
      (by
        intro k hk
        have hk0 : k = 0 := Nat.lt_one_iff.mp (by simpa using hk)
        subst hk0; simp)
      (by intro k hk; cases hk)
    simpa [argmax] using hmain

theorem move_side (p : NNQPlayerTF2) (b : Board) (pr qv : List ℚ) :
    (p.move b pr qv).1.side = p.side := rfl

theorem move_training (p : NNQPlayerTF2) (b : Board) (pr qv : List ℚ) :
    (p.move b pr qv).1.training = p.training := rfl

theorem move_reward_discount (p : NNQPlayerTF2) (b : Board) (pr qv : List ℚ) :
    (p.move b pr qv).1.reward_discount = p.reward_discount := rfl

theorem move_win_value (p : NNQPlayerTF2) (b : Board) (pr qv : List ℚ) :
    (p.move b pr qv).1.win_value = p.win_value := rfl

theorem move_draw_value (p : NNQPlayerTF2) (b : Board) (pr qv : List ℚ) :
    (p.move b pr qv).1.draw_value = p.draw_value := rfl

theorem move_loss_value (p : NNQPlayerTF2) (b : Board) (pr qv : List ℚ) :
    (p.move b pr qv).1.loss_value = p.loss_value := rfl

theorem move_snd (p : NNQPlayerTF2) (b : Board) (pr qv : List ℚ) :
    (p.move b pr qv).2 = argmax (maskIllegal b.is_legal qv.length pr) := rfl

theorem move_action_log (p : NNQPlayerTF2) (b : Board) (pr qv : List ℚ) :
    (p.move b pr qv).1.action_log = p.action_log ++ [(p.move b pr qv).2] := rfl

theorem move_values_log (p : NNQPlayerTF2) (b : Board) (pr qv : List ℚ) :
    (p.move b pr qv).1.values_log = p.values_log ++ [qv] := rfl

theorem move_board_position_log (p : NNQPlayerTF2) (b : Board) (pr qv : List ℚ) :
    (p.move b pr qv).1.board_position_log =
      p.board_position_log ++ [b.state] := rfl

theorem move_next_max_log (p : NNQPlayerTF2) (b : Board) (pr qv : List ℚ) :
    (p.move b pr qv).1.next_max_log =
      if 0 < p.action_log.length then
        p.next_max_log ++ [qv.getD (p.move b pr qv).2 0]
      else p.next_max_log := rfl

theorem move_chosen (p : NNQPlayerTF2) (s : StepInput) :
    (p.move s.board s.probs s.qvalues).2 = s.chosen := rfl

end NNQPlayerTF2

theorem runMoves_nil (p : NNQPlayerTF2) : runMoves p [] = p := rfl

theorem runMoves_cons (p : NNQPlayerTF2) (s : StepInput) (ss : List StepInput) :
    runMoves p (s :: ss) =
      runMoves (p.move s.board s.probs s.qvalues).1 ss := rfl

theorem runMoves_side (p : NNQPlayerTF2) (steps : List StepInput) :
    (runMoves p steps).side = p.side := by
  induction steps generalizing p with
  | nil => rfl
  | cons s ss ih => rw [runMoves_cons, ih, NNQPlayerTF2.move_side]

theorem runMoves_training (p : NNQPlayerTF2) (steps : List StepInput) :
    (runMoves p steps).training = p.training := by
  induction steps generalizing p with
  | nil => rfl
  | cons s ss ih => rw [runMoves_cons, ih, NNQPlayerTF2.move_training]

theorem runMoves_reward_values (p : NNQPlayerTF2) (steps : List StepInput) :
    (runMoves p steps).reward_discount = p.reward_discount ∧
      (runMoves p steps).win_value = p.win_value ∧
      (runMoves p steps).draw_value = p.draw_value ∧
      (runMoves p steps).loss_value = p.loss_value := by
  induction steps generalizing p with
  | nil => exact ⟨rfl, rfl, rfl, rfl⟩
  | cons s ss ih =>
    rw [runMoves_cons]
    exact ih (p.move s.board s.probs s.qvalues).1

theorem runMoves_action_log (p : NNQPlayerTF2) (steps : List StepInput) :
    (runMoves p steps).action_log =
      p.action_log ++ steps.map StepInput.chosen := by
  induction steps generalizing p with
  | nil => simp [runMoves_nil]
  | cons s ss ih =>
    rw [runMoves_cons, ih, NNQPlayerTF2.move_action_log,
      NNQPlayerTF2.move_chosen]
    simp

theorem runMoves_values_log (p : NNQPlayerTF2) (steps : List StepInput) :
    (runMoves p steps).values_log =
      p.values_log ++ steps.map StepInput.qvalues := by
  induction steps generalizing p with
  | nil => simp [runMoves_nil]
  | cons s ss ih =>
    rw [runMoves_cons, ih, NNQPlayerTF2.move_values_log]
    simp

theorem runMoves_board_position_log (p : NNQPlayerTF2) (steps : List StepInput) :
    (runMoves p steps).board_position_log =
      p.board_position_log ++ steps.map (fun s => s.board.state) := by
  induction steps generalizing p with
  | nil => simp [runMoves_nil]
  | cons s ss ih =>
    rw [runMoves_cons, ih, NNQPlayerTF2.move_board_position_log]
    simp

theorem runMoves_next_max_log_of_ne (p : NNQPlayerTF2) (steps : List StepInput)
    (h : p.action_log ≠ []) :
    (runMoves p steps).next_max_log =
      p.next_max_log ++ steps.map StepInput.boot := by
  induction steps generalizing p with
  | nil => simp [runMoves_nil]
  | cons s ss ih =>
    rw [runMoves_cons, ih]
    · rw [NNQPlayerTF2.move_next_max_log, if_pos (List.length_pos.mpr h),
        NNQPlayerTF2.move_chosen]
      simp [StepInput.boot]
    · rw [NNQPlayerTF2.move_action_log]
      simp

theorem runMoves_next_max_log_of_empty (p : NNQPlayerTF2)
    (steps : List StepInput) (h : p.action_log = []) :
    (runMoves p steps).next_max_log =
      p.next_max_log ++ (steps.drop 1).map StepInput.boot := by
  cases steps with
  | nil => simp [runMoves_nil]
  | cons s ss =>
    rw [runMoves_cons, runMoves_next_max_log_of_ne]
    · rw [NNQPlayerTF2.move_next_max_log, h]
      simp
    · rw [NNQPlayerTF2.move_action_log]
      simp

namespace NNQPlayerTF2

theorem finalResultWith_fst (p : NNQPlayerTF2) (w : ℚ) :
    (p.finalResultWith w).1 =
      { p with next_max_log := p.next_max_log ++ [w] } := by
  unfold finalResultWith
  split <;> rfl

theorem finalResultWith_snd_of_not_training (p : NNQPlayerTF2) (w : ℚ)
    (h : p.training = false) :
    (p.finalResultWith w).2 = none := by
  simp [finalResultWith, h]

theorem final_result_ok_elim (p : NNQPlayerTF2) (r : GameResult)
    (x : NNQPlayerTF2 × Option FitCall) (h : p.final_result r = Except.ok x) :
    x = p.finalResultWith p.win_value ∨ x = p.finalResultWith p.loss_value ∨
      x = p.finalResultWith p.draw_value := by
  unfold final_result at h
  split_ifs at h with h1 h2 h3
  all_goals first
    | exact Or.inl (Except.ok.inj h).symm
    | exact Or.inr (Or.inl (Except.ok.inj h).symm)
    | exact Or.inr (Or.inr (Except.ok.inj h).symm)

end NNQPlayerTF2

theorem getD_append_left_any {α : Type} (l l' : List α) (n : Nat) (d : α)
    (h : n < l.length) : (l ++ l').getD n d = l.getD n d := by
  rw [List.getD_eq_getElem?_getD, List.getElem?_append_left h,
    ← List.getD_eq_getElem?_getD]

theorem getD_append_right_any {α : Type} (l l' : List α) (n : Nat) (d : α)
    (h : l.length ≤ n) : (l ++ l').getD n d = l'.getD (n - l.length) d := by
  rw [List.getD_eq_getElem?_getD, List.getElem?_append_right h,
    ← List.getD_eq_getElem?_getD]

theorem getD_map_any {α β : Type} (f : α → β) (l : List α) (i : Nat)
    (h : i < l.length) (d : β) : (l.map f).getD i d = f (l.get ⟨i, h⟩) := by
  rw [List.getD_eq_getElem?_getD, List.getElem?_map, List.getElem?_eq_getElem h]
  rfl

/-- C5: after the illegal-move masking step inside `move`, every action index
the board reports illegal has probability exactly −1, and every legal action
index keeps the exact probability value returned by the Approximator,
unchanged. -/
theorem move_masking (b : Board) (probs qvalues : List ℚ)
    (hp : probs.length = BOARD_SIZE) (hq : qvalues.length = BOARD_SIZE)
    (j : Nat) (hj : j < BOARD_SIZE) :
    (NNQPlayerTF2.maskIllegal b.is_legal qvalues.length probs).getD j 0 =
      if b.is_legal j then probs.getD j 0 else -1 := by
  rw [NNQPlayerTF2.maskIllegal_getD]
  by_cases hl : b.is_legal j
  · simp [hl]
  · have hlf : b.is_legal j = false := Bool.eq_false_iff.mpr hl
    simp [hlf, hp, hq, hj]

/-- C5 witness: on the sample board, index 1 is illegal and masked to −1,
index 2 is legal and keeps its original probability 1. -/
theorem move_masking_witness :
    (NNQPlayerTF2.maskIllegal demoBoard1.is_legal demoQ1.length
        demoProbs1).getD 1 0 = -1 ∧
      (NNQPlayerTF2.maskIllegal demoBoard1.is_legal demoQ1.length
        demoProbs1).getD 2 0 = 1 := by
  constructor
  · have h := move_masking demoBoard1 demoProbs1 demoQ1 (by decide) (by decide)
      1 (by decide)
    rw [h]; decide
  · have h := move_masking demoBoard1 demoProbs1 demoQ1 (by decide) (by decide)
      2 (by decide)
    rw [h]; decide

/-- C1: for every board with at least one legal action, the move selected by
`NNQPlayerTF2.move` (the argmax of the masked probability vector) is a legal
action, for all probability vectors with entries in [0,1] before masking. -/
theorem move_selects_legal (p : NNQPlayerTF2) (b : Board)
    (probs qvalues : List ℚ)
    (hp : probs.length = BOARD_SIZE) (hq : qvalues.length = BOARD_SIZE)
    (hrange : ∀ j, j < BOARD_SIZE →
      0 ≤ probs.getD j 0 ∧ probs.getD j 0 ≤ 1)
    (j0 : Nat) (hj0 : j0 < BOARD_SIZE) (hleg : b.is_legal j0 = true) :
    b.is_legal (p.move b probs qvalues).2 = true := by
  rw [NNQPlayerTF2.move_snd]
  have hlen : (NNQPlayerTF2.maskIllegal b.is_legal qvalues.length
      probs).length = BOARD_SIZE := by
    rw [NNQPlayerTF2.maskIllegal_length, hp]
  have hne : NNQPlayerTF2.maskIllegal b.is_legal qvalues.length probs ≠ [] := by
    intro hnil
    rw [hnil] at hlen
    simp [BOARD_SIZE] at hlen
  obtain ⟨hlt, hmax, _⟩ := NNQPlayerTF2.argmax_spec _ hne
  have hj0v : (NNQPlayerTF2.maskIllegal b.is_legal qvalues.length
      probs).getD j0 0 = probs.getD j0 0 := by
    rw [NNQPlayerTF2.maskIllegal_getD]
    simp [hleg]
  by_contra hcon
  have hmf : b.is_legal (NNQPlayerTF2.argmax (NNQPlayerTF2.maskIllegal
      b.is_legal qvalues.length probs)) = false := Bool.eq_false_iff.mpr hcon
  have hmB : NNQPlayerTF2.argmax (NNQPlayerTF2.maskIllegal b.is_legal
      qvalues.length probs) < BOARD_SIZE := by rw [← hlen]; exact hlt
  have hmv : (NNQPlayerTF2.maskIllegal b.is_legal qvalues.length probs).getD
      (NNQPlayerTF2.argmax (NNQPlayerTF2.maskIllegal b.is_legal
        qvalues.length probs)) 0 = -1 := by
    rw [NNQPlayerTF2.maskIllegal_getD]
    have c1 : NNQPlayerTF2.argmax (NNQPlayerTF2.maskIllegal b.is_legal
        qvalues.length probs) < qvalues.length := lt_of_lt_of_eq hmB hq.symm
    have c3 : NNQPlayerTF2.argmax (NNQPlayerTF2.maskIllegal b.is_legal
        qvalues.length probs) < probs.length := lt_of_lt_of_eq hmB hp.symm
    rw [if_pos ⟨c1, hmf, c3⟩]
  have h1 := hmax j0 (by rw [hlen]; exact hj0)
  rw [hmv, hj0v] at h1
  have h2 : (0 : ℚ) ≤ probs.getD j0 0 := (hrange j0 hj0).1
  linarith

/-- C1 witness: on the sample board (legal actions 2–8) with the sample
probabilities, the selected move is legal. -/
theorem move_selects_legal_witness :
    demoBoard1.is_legal
      (demoPlayer.move demoBoard1 demoProbs1 demoQ1).2 = true :=
  move_selects_legal demoPlayer demoBoard1 demoProbs1 demoQ1 (by decide)
    (by decide) (by decide) 2 (by decide) (by decide)

/-- C9: the move selected by `move` is the lowest index attaining the maximum
of the masked probability vector: it attains the maximum, and it is ≤ any
index that attains the maximum (so on ties the lower index wins); selection is
a pure function of the masked vector, hence deterministic. -/
theorem move_tie_break (p : NNQPlayerTF2) (b : Board) (probs qvalues : List ℚ)
    (hp : probs.length = BOARD_SIZE) (hq : qvalues.length = BOARD_SIZE) :
    (∀ k, k < BOARD_SIZE →
      (NNQPlayerTF2.maskIllegal b.is_legal qvalues.length probs).getD k 0 ≤
        (NNQPlayerTF2.maskIllegal b.is_legal qvalues.length probs).getD
          ((p.move b probs qvalues).2) 0) ∧
    (∀ i, i < BOARD_SIZE →
      (∀ k, k < BOARD_SIZE →
        (NNQPlayerTF2.maskIllegal b.is_legal qvalues.length probs).getD k 0 ≤
          (NNQPlayerTF2.maskIllegal b.is_legal qvalues.length probs).getD
            i 0) →
      (p.move b probs qvalues).2 ≤ i) := by
  rw [NNQPlayerTF2.move_snd]
  have hlen : (NNQPlayerTF2.maskIllegal b.is_legal qvalues.length
      probs).length = BOARD_SIZE := by
    rw [NNQPlayerTF2.maskIllegal_length, hp]
  have hne : NNQPlayerTF2.maskIllegal b.is_legal qvalues.length probs ≠ [] := by
    intro hnil
    rw [hnil] at hlen
    simp [BOARD_SIZE] at hlen
  obtain ⟨hlt, hmax, hfirst⟩ := NNQPlayerTF2.argmax_spec _ hne
  constructor
  · intro k hk
    exact hmax k (by rw [hlen]; exact hk)
  · intro i hi hmaxi
    by_contra hcon
    have hlt2 : i < NNQPlayerTF2.argmax (NNQPlayerTF2.maskIllegal b.is_legal
        qvalues.length probs) := Nat.lt_of_not_le hcon
    have h1 := hfirst i hlt2
    have h2 := hmaxi _ (by rw [← hlen]; exact hlt)
    exact absurd (lt_of_lt_of_le h1 h2) (lt_irrefl _)

/-- C9 witness: in the sample step, masked probabilities tie at indices 2 and
3 with the maximum 1; the selected move is 2, the lower of the two. -/
theorem move_tie_break_witness :
    (demoPlayer.move demoBoard1 demoProbs1 demoQ1).2 ≤ 2 ∧
      (demoPlayer.move demoBoard1 demoProbs1 demoQ1).2 = 2 := by
  constructor
  · exact (move_tie_break demoPlayer demoBoard1 demoProbs1 demoQ1 (by decide)
      (by decide)).2 2 (by decide) (by decide)
  · decide

/-- C7: for every board state (cells among own mark, opponent mark, empty),
the encoder output is the concatenation, in order, of the own-piece,
opponent-piece and empty-cell 0/1 indicator blocks (length 3N), and each cell
index is set to 1 in exactly one of the three blocks (the indicators sum
to 1). -/
theorem board_state_to_nn_input_spec (side : Side) (state : List Cell) :
    (NNQPlayerTF2.board_state_to_nn_input side state).length =
        3 * state.length ∧
      ∀ i (hi : i < state.length),
        (NNQPlayerTF2.board_state_to_nn_input side state).getD i 0 =
            (if state.get ⟨i, hi⟩ = side.cell then 1 else 0) ∧
          (NNQPlayerTF2.board_state_to_nn_input side state).getD
              (state.length + i) 0 =
            (if state.get ⟨i, hi⟩ = side.other_side.cell then 1 else 0) ∧
          (NNQPlayerTF2.board_state_to_nn_input side state).getD
              (2 * state.length + i) 0 =
            (if state.get ⟨i, hi⟩ = Cell.empty then 1 else 0) ∧
          (NNQPlayerTF2.board_state_to_nn_input side state).getD i 0 +
              (NNQPlayerTF2.board_state_to_nn_input side state).getD
                (state.length + i) 0 +
              (NNQPlayerTF2.board_state_to_nn_input side state).getD
                (2 * state.length + i) 0 = 1 := by
  unfold NNQPlayerTF2.board_state_to_nn_input
  constructor
  · simp
    omega
  · intro i hi
    have e1 : ((state.map (fun c => if c = side.cell then 1 else 0) ++
        state.map (fun c => if c = side.other_side.cell then 1 else 0)) ++
        state.map (fun c => if c = Cell.empty then 1 else 0)).getD i 0 =
        (if state.get ⟨i, hi⟩ = side.cell then 1 else 0) := by
      rw [getD_append_left_any _ _ _ _ (by simp; omega),
        getD_append_left_any _ _ _ _ (by simpa using hi),
        getD_map_any _ _ i hi]
    have e2 : ((state.map (fun c => if c = side.cell then 1 else 0) ++
        state.map (fun c => if c = side.other_side.cell then 1 else 0)) ++
        state.map (fun c => if c = Cell.empty then 1 else 0)).getD
          (state.length + i) 0 =
        (if state.get ⟨i, hi⟩ = side.other_side.cell then 1 else 0) := by
      rw [getD_append_left_any _ _ _ _ (by simp; omega),
        getD_append_right_any _ _ _ _ (by simp)]
      have hsub : state.length + i -
          (state.map (fun c => if c = side.cell then 1 else 0)).length = i := by
        simp
      rw [hsub, getD_map_any _ _ i hi]
    have e3 : ((state.map (fun c => if c = side.cell then 1 else 0) ++
        state.map (fun c => if c = side.other_side.cell then 1 else 0)) ++
        state.map (fun c => if c = Cell.empty then 1 else 0)).getD
          (2 * state.length + i) 0 =
        (if state.get ⟨i, hi⟩ = Cell.empty then 1 else 0) := by
      rw [getD_append_right_any _ _ _ _ (by simp; omega)]
      have hsub : 2 * state.length + i -
          ((state.map (fun c => if c = side.cell then 1 else 0)).length +
            (state.map
              (fun c => if c = side.other_side.cell then 1 else 0)).length)
          = i := by
        simp
        omega
      simp only [List.length_append]
      rw [hsub, getD_map_any _ _ i hi]
    refine ⟨e1, e2, e3, ?_⟩
    rw [e1, e2, e3]
    cases state.get ⟨i, hi⟩ <;> cases side <;>
      simp [Side.cell, Side.other_side]

/-- C7 witness: on the sample board state, the feature vector has length 27
and the three indicator bits of cell 0 sum to 1. -/
theorem board_state_to_nn_input_spec_witness :
    (NNQPlayerTF2.board_state_to_nn_input Side.cross
        demoBoard1.state).length = 3 * demoBoard1.state.length ∧
      (NNQPlayerTF2.board_state_to_nn_input Side.cross
          demoBoard1.state).getD 0 0 +
        (NNQPlayerTF2.board_state_to_nn_input Side.cross
          demoBoard1.state).getD (demoBoard1.state.length + 0) 0 +
        (NNQPlayerTF2.board_state_to_nn_input Side.cross
          demoBoard1.state).getD (2 * demoBoard1.state.length + 0) 0 = 1 := by
  have h := board_state_to_nn_input_spec Side.cross demoBoard1.state
  exact ⟨h.1, (h.2 0 (by decide)).2.2.2⟩

/-- C3: for each recorded step `i`, the target vector built by
`calculate_targets` differs from the logged Q-value vector `values_log[i]` at
exactly the coordinate `action_log[i]`, whose new value is
`reward_discount * next_max_log[i]`; every other coordinate is identical. -/
theorem calculate_targets_spec (p : NNQPlayerTF2) (i : Nat)
    (hi : i < p.action_log.length)
    (ha : p.action_log.getD i 0 < (p.values_log.getD i []).length) :
    (NNQPlayerTF2.calculate_targets p).length = p.action_log.length ∧
      ((NNQPlayerTF2.calculate_targets p).getD i []).length =
        (p.values_log.getD i []).length ∧
      ((NNQPlayerTF2.calculate_targets p).getD i []).getD
          (p.action_log.getD i 0) 0 =
        p.reward_discount * p.next_max_log.getD i 0 ∧
      ∀ j, j ≠ p.action_log.getD i 0 →
        ((NNQPlayerTF2.calculate_targets p).getD i []).getD j 0 =
          (p.values_log.getD i []).getD j 0 := by
  have hT : (NNQPlayerTF2.calculate_targets p).getD i [] =
      (p.values_log.getD i []).set (p.action_log.getD i 0)
        (p.reward_discount * p.next_max_log.getD i 0) := by
    unfold NNQPlayerTF2.calculate_targets
    rw [getD_map_any _ _ i (by simpa using hi)]
    simp
  refine ⟨?_, ?_, ?_, ?_⟩
  · unfold NNQPlayerTF2.calculate_targets
    simp
  · rw [hT, List.length_set]
  · rw [hT, getD_set, if_pos ⟨rfl, ha⟩]
  · intro j hj
    rw [hT, getD_set, if_neg]
    intro hcontra
    exact hj hcontra.1.symm

/-- C3 witness: in the sample logged state, target 0 changes coordinate 2
(the logged action) to `reward_discount * next_max_log[0]` and keeps
coordinate 0 of the logged Q-vector. -/
theorem calculate_targets_spec_witness :
    (NNQPlayerTF2.calculate_targets demoLogged).length =
        demoLogged.action_log.length ∧
      ((NNQPlayerTF2.calculate_targets demoLogged).getD 0 []).getD
          (demoLogged.action_log.getD 0 0) 0 =
        demoLogged.reward_discount * demoLogged.next_max_log.getD 0 0 ∧
      ((NNQPlayerTF2.calculate_targets demoLogged).getD 0 []).getD 0 0 =
        (demoLogged.values_log.getD 0 []).getD 0 0 := by
  have h := calculate_targets_spec demoLogged 0 (by decide) (by decide)
  exact ⟨h.1, h.2.2.1, h.2.2.2 0 (by decide)⟩

/-- C4: `final_result` maps the outcome to a scalar reward by a fixed
side-dependent lookup: a win for the agent's side appends `win_value`, a loss
appends `loss_value`, DRAW appends `draw_value` regardless of side, and any
other outcome value (NOT_FINISHED) raises an error. -/
theorem final_result_reward_map (p : NNQPlayerTF2) :
    p.final_result GameResult.notFinished = Except.error p ∧
      (p.side = Side.cross →
        (p.final_result GameResult.crossWin).map
            (fun x => x.1.next_max_log) =
          Except.ok (p.next_max_log ++ [p.win_value]) ∧
        (p.final_result GameResult.naughtWin).map
            (fun x => x.1.next_max_log) =
          Except.ok (p.next_max_log ++ [p.loss_value])) ∧
      (p.side = Side.naught →
        (p.final_result GameResult.naughtWin).map
            (fun x => x.1.next_max_log) =
          Except.ok (p.next_max_log ++ [p.win_value]) ∧
        (p.final_result GameResult.crossWin).map
            (fun x => x.1.next_max_log) =
          Except.ok (p.next_max_log ++ [p.loss_value])) ∧
      (p.final_result GameResult.draw).map (fun x => x.1.next_max_log) =
        Except.ok (p.next_max_log ++ [p.draw_value]) := by
  have hok : ∀ w : ℚ,
      (Except.ok (p.finalResultWith w) :
          Except NNQPlayerTF2 (NNQPlayerTF2 × Option FitCall)).map
        (fun x => x.1.next_max_log) = Except.ok (p.next_max_log ++ [w]) := by
    intro w
    simp [Except.map, NNQPlayerTF2.finalResultWith_fst]
  refine ⟨?_, ?_, ?_, ?_⟩
  · unfold NNQPlayerTF2.final_result
    rw [if_neg (by simp), if_neg (by simp), if_neg (by simp)]
  · intro hs
    constructor
    · have hcw : p.final_result GameResult.crossWin =
          Except.ok (p.finalResultWith p.win_value) := by
        unfold NNQPlayerTF2.final_result
        rw [if_pos (Or.inr ⟨rfl, hs⟩)]
      rw [hcw]; exact hok _
    · have hnw : p.final_result GameResult.naughtWin =
          Except.ok (p.finalResultWith p.loss_value) := by
        unfold NNQPlayerTF2.final_result
        rw [if_neg (by simp [hs]), if_pos (Or.inl ⟨rfl, hs⟩)]
      rw [hnw]; exact hok _
  · intro hs
    constructor
    · have hnw : p.final_result GameResult.naughtWin =
          Except.ok (p.finalResultWith p.win_value) := by
        unfold NNQPlayerTF2.final_result
        rw [if_pos (Or.inl ⟨rfl, hs⟩)]
      rw [hnw]; exact hok _
    · have hcw : p.final_result GameResult.crossWin =
          Except.ok (p.finalResultWith p.loss_value) := by
        unfold NNQPlayerTF2.final_result
        rw [if_neg (by simp [hs]), if_pos (Or.inr ⟨rfl, hs⟩)]
      rw [hcw]; exact hok _
  · have hdw : p.final_result GameResult.draw =
        Except.ok (p.finalResultWith p.draw_value) := by
      unfold NNQPlayerTF2.final_result
      rw [if_neg (by simp), if_neg (by simp), if_pos rfl]
    rw [hdw]; exact hok _

/-- C4 witness: the sample agent plays CROSS; CROSS_WIN appends `win_value`,
NAUGHT_WIN appends `loss_value`, DRAW appends `draw_value`, and NOT_FINISHED
raises. -/
theorem final_result_reward_map_witness :
    demoPlayer.final_result GameResult.notFinished =
        Except.error demoPlayer ∧
      (demoPlayer.final_result GameResult.crossWin).map
          (fun x => x.1.next_max_log) =
        Except.ok (demoPlayer.next_max_log ++ [demoPlayer.win_value]) ∧
      (demoPlayer.final_result GameResult.naughtWin).map
          (fun x => x.1.next_max_log) =
        Except.ok (demoPlayer.next_max_log ++ [demoPlayer.loss_value]) ∧
      (demoPlayer.final_result GameResult.draw).map
          (fun x => x.1.next_max_log) =
        Except.ok (demoPlayer.next_max_log ++ [demoPlayer.draw_value]) := by
  have h := final_result_reward_map demoPlayer
  exact ⟨h.1, (h.2.1 rfl).1, (h.2.1 rfl).2, h.2.2.2⟩

/-- C10: if `final_result` is called with an outcome that is neither a win nor
a loss for the agent's side nor a draw, the `ValueError` is raised before any
agent state is modified: the raise-time state carried by the error is exactly
the pre-call state (all logs and `side` untouched), and no fit call is
produced. -/
theorem final_result_invalid_outcome (p : NNQPlayerTF2) (r : GameResult)
    (hw : ¬((r = GameResult.naughtWin ∧ p.side = Side.naught) ∨
      (r = GameResult.crossWin ∧ p.side = Side.cross)))
    (hl : ¬((r = GameResult.naughtWin ∧ p.side = Side.cross) ∨
      (r = GameResult.crossWin ∧ p.side = Side.naught)))
    (hd : ¬(r = GameResult.draw)) :
    p.final_result r = Except.error p := by
  unfold NNQPlayerTF2.final_result
  rw [if_neg hw, if_neg hl, if_neg hd]

/-- C10 witness: calling `final_result` with NOT_FINISHED on the sample agent
raises, carrying the unmodified pre-call state. -/
theorem final_result_invalid_outcome_witness :
    demoPlayer.final_result GameResult.notFinished =
      Except.error demoPlayer :=
  final_result_invalid_outcome demoPlayer GameResult.notFinished (by decide)
    (by decide) (by decide)

theorem finalResultWith_no_training (p : NNQPlayerTF2) (w : ℚ)
    (htr : p.training = false) (p' : NNQPlayerTF2) (fit : Option FitCall)
    (hc : (p', fit) = p.finalResultWith w) :
    fit = none ∧ p'.board_position_log = p.board_position_log ∧
      p'.action_log = p.action_log ∧ p'.values_log = p.values_log ∧
      p'.side = p.side ∧ p'.next_max_log = p.next_max_log ++ [w] := by
  have h1 : p' = (p.finalResultWith w).1 := by rw [← hc]
  have h2 : fit = (p.finalResultWith w).2 := by rw [← hc]
  rw [NNQPlayerTF2.finalResultWith_fst] at h1
  rw [NNQPlayerTF2.finalResultWith_snd_of_not_training p w htr] at h2
  subst h1
  exact ⟨h2, rfl, rfl, rfl, rfl, rfl⟩

/-- C8: with `training = False`, a successful `final_result` produces no fit
call, yet the terminal reward is still appended to `next_max_log` and all
other logs (and the side) remain exactly as populated during the episode. -/
theorem final_result_training_disabled (p : NNQPlayerTF2) (r : GameResult)
    (htr : p.training = false) (p' : NNQPlayerTF2) (fit : Option FitCall)
    (h : p.final_result r = Except.ok (p', fit)) :
    fit = none ∧
      p'.board_position_log = p.board_position_log ∧
      p'.action_log = p.action_log ∧
      p'.values_log = p.values_log ∧
      p'.side = p.side ∧
      ∃ w, p'.next_max_log = p.next_max_log ++ [w] := by
  rcases NNQPlayerTF2.final_result_ok_elim p r (p', fit) h with hc | hc | hc
  · obtain ⟨h1, h2, h3, h4, h5, h6⟩ :=
      finalResultWith_no_training p p.win_value htr p' fit hc
    exact ⟨h1, h2, h3, h4, h5, p.win_value, h6⟩
  · obtain ⟨h1, h2, h3, h4, h5, h6⟩ :=
      finalResultWith_no_training p p.loss_value htr p' fit hc
    exact ⟨h1, h2, h3, h4, h5, p.loss_value, h6⟩
  · obtain ⟨h1, h2, h3, h4, h5, h6⟩ :=
      finalResultWith_no_training p p.draw_value htr p' fit hc
    exact ⟨h1, h2, h3, h4, h5, p.draw_value, h6⟩

/-- C8 witness: the training-disabled sample agent, after `final_result(DRAW)`,
has unchanged logs, no fit call, and the appended terminal reward. -/
theorem final_result_training_disabled_witness :
    demoNoTrainEnd.board_position_log =
        demoPlayerNoTrain.board_position_log ∧
      demoNoTrainEnd.action_log = demoPlayerNoTrain.action_log ∧
      (∃ w, demoNoTrainEnd.next_max_log =
        demoPlayerNoTrain.next_max_log ++ [w]) := by
  have h := final_result_training_disabled demoPlayerNoTrain GameResult.draw
    rfl demoNoTrainEnd none (by rfl)
  exact ⟨h.2.1, h.2.2.1, h.2.2.2.2.2⟩

theorem next_max_aligned (steps : List StepInput) (w : ℚ)
    (hL : 0 < steps.length) (nm : List ℚ)
    (hnm : nm = (steps.drop 1).map StepInput.boot ++ [w]) :
    nm.length = steps.length ∧
      (∀ i (hi1 : i + 1 < steps.length),
        nm.getD i 0 = (steps.get ⟨i + 1, hi1⟩).boot) ∧
      nm.getD (steps.length - 1) 0 = w := by
  subst hnm
  have hdlen : ((steps.drop 1).map StepInput.boot).length =
      steps.length - 1 := by simp
  refine ⟨?_, ?_, ?_⟩
  · rw [List.length_append, hdlen]
    simp
    omega
  · intro i hi1
    have hi : i < steps.length - 1 := by omega
    have hd : i < (steps.drop 1).length := by
      rw [List.length_drop]; exact hi
    rw [getD_append_left_any _ _ _ _ (by rw [hdlen]; exact hi)]
    rw [getD_map_any _ _ i hd]
    have hget : (steps.drop 1).get ⟨i, hd⟩ = steps.get ⟨i + 1, hi1⟩ := by
      rw [List.get_eq_getElem, List.get_eq_getElem, List.getElem_drop]
      simp [show (1 : Nat) + i = i + 1 from Nat.add_comm 1 i]
    rw [hget]
  · rw [getD_append_right_any _ _ _ _ (le_of_eq hdlen), hdlen, Nat.sub_self]
    rfl

/-- C2: after a complete episode of length L (L `move` calls after `new_game`,
then a successful `final_result`), `next_max_log` has exactly L entries;
entry i (i ≤ L−2) is the Q-value of the move chosen at step i+1; entry L−1
is the scalar reward mapped from the terminal outcome. -/
theorem episode_bootstrap_alignment (p : NNQPlayerTF2) (side : Side)
    (steps : List StepInput) (hL : 0 < steps.length) (r : GameResult)
    (p' : NNQPlayerTF2) (fit : Option FitCall)
    (h : (runMoves (p.new_game side) steps).final_result r =
      Except.ok (p', fit)) :
    p'.next_max_log.length = steps.length ∧
      (∀ i (hi1 : i + 1 < steps.length),
        p'.next_max_log.getD i 0 = (steps.get ⟨i + 1, hi1⟩).boot) ∧
      p'.next_max_log.getD (steps.length - 1) 0 =
        (if (r = GameResult.naughtWin ∧ side = Side.naught) ∨
            (r = GameResult.crossWin ∧ side = Side.cross) then p.win_value
         else if (r = GameResult.naughtWin ∧ side = Side.cross) ∨
            (r = GameResult.crossWin ∧ side = Side.naught) then p.loss_value
         else p.draw_value) := by
  have hqnm : (runMoves (p.new_game side) steps).next_max_log =
      (steps.drop 1).map StepInput.boot := by
    rw [runMoves_next_max_log_of_empty _ _ rfl]
    rfl
  have hqside : (runMoves (p.new_game side) steps).side = side := by
    rw [runMoves_side]
    rfl
  have hqwin : (runMoves (p.new_game side) steps).win_value = p.win_value :=
    (runMoves_reward_values (p.new_game side) steps).2.1
  have hqdraw : (runMoves (p.new_game side) steps).draw_value =
      p.draw_value :=
    (runMoves_reward_values (p.new_game side) steps).2.2.1
  have hqloss : (runMoves (p.new_game side) steps).loss_value =
      p.loss_value :=
    (runMoves_reward_values (p.new_game side) steps).2.2.2
  unfold NNQPlayerTF2.final_result at h
  split_ifs at h with h1 h2 h3
  · have hfst : ((runMoves (p.new_game side) steps).finalResultWith
        (runMoves (p.new_game side) steps).win_value).1 = p' :=
      congrArg Prod.fst (Except.ok.inj h)
    rw [NNQPlayerTF2.finalResultWith_fst] at hfst
    have hnm : p'.next_max_log =
        (steps.drop 1).map StepInput.boot ++ [p.win_value] := by
      rw [← hfst]
      show (runMoves (p.new_game side) steps).next_max_log ++
        [(runMoves (p.new_game side) steps).win_value] = _
      rw [hqnm, hqwin]
    obtain ⟨g1, g2, g3⟩ := next_max_aligned steps p.win_value hL _ hnm
    rw [hqside] at h1
    exact ⟨g1, g2, by rw [g3, if_pos h1]⟩
  · have hfst : ((runMoves (p.new_game side) steps).finalResultWith
        (runMoves (p.new_game side) steps).loss_value).1 = p' :=
      congrArg Prod.fst (Except.ok.inj h)
    rw [NNQPlayerTF2.finalResultWith_fst] at hfst
    have hnm : p'.next_max_log =
        (steps.drop 1).map StepInput.boot ++ [p.loss_value] := by
      rw [← hfst]
      show (runMoves (p.new_game side) steps).next_max_log ++
        [(runMoves (p.new_game side) steps).loss_value] = _
      rw [hqnm, hqloss]
    obtain ⟨g1, g2, g3⟩ := next_max_aligned steps p.loss_value hL _ hnm
    rw [hqside] at h1 h2
    exact ⟨g1, g2, by rw [g3, if_neg h1, if_pos h2]⟩
  · have hfst : ((runMoves (p.new_game side) steps).finalResultWith
        (runMoves (p.new_game side) steps).draw_value).1 = p' :=
      congrArg Prod.fst (Except.ok.inj h)
    rw [NNQPlayerTF2.finalResultWith_fst] at hfst
    have hnm : p'.next_max_log =
        (steps.drop 1).map StepInput.boot ++ [p.draw_value] := by
      rw [← hfst]
      show (runMoves (p.new_game side) steps).next_max_log ++
        [(runMoves (p.new_game side) steps).draw_value] = _
      rw [hqnm, hqdraw]
    obtain ⟨g1, g2, g3⟩ := next_max_aligned steps p.draw_value hL _ hnm
    rw [hqside] at h1 h2
    exact ⟨g1, g2, by rw [g3, if_neg h1, if_neg h2]⟩

/-- C2 witness: in the completed two-step sample episode (CROSS wins),
`next_max_log` has 2 entries, entry 0 is the Q-value of the move chosen at
step 1, and the final entry is the mapped terminal reward. -/
theorem episode_bootstrap_alignment_witness :
    demoEpisodeState.next_max_log.length = demoSteps.length ∧
      demoEpisodeState.next_max_log.getD 0 0 =
        (demoSteps.get ⟨0 + 1, by decide⟩).boot ∧
      demoEpisodeState.next_max_log.getD (demoSteps.length - 1) 0 =
        (if (GameResult.crossWin = GameResult.naughtWin ∧
              Side.cross = Side.naught) ∨
            (GameResult.crossWin = GameResult.crossWin ∧
              Side.cross = Side.cross) then demoPlayer.win_value
         else if (GameResult.crossWin = GameResult.naughtWin ∧
              Side.cross = Side.cross) ∨
            (GameResult.crossWin = GameResult.crossWin ∧
              Side.cross = Side.naught) then demoPlayer.loss_value
         else demoPlayer.draw_value) := by
  have h := episode_bootstrap_alignment demoPlayer Side.cross demoSteps
    (by decide) GameResult.crossWin demoEpisodeState demoEpisodeFit (by rfl)
  exact ⟨h.1, h.2.1 0 (by decide), h.2.2⟩

/-- C6: in every state reachable by `new_game` followed by `move` calls
(before `final_result`), the action, value and board-snapshot logs have equal
length L, and `next_max_log` has length L − 1 (both zero when L = 0); the
lengths of `next_max_log` and `action_log` become equal only once
`final_result` appends the terminal reward. -/
theorem log_length_invariant (p : NNQPlayerTF2) (side : Side)
    (steps : List StepInput) :
    (runMoves (p.new_game side) steps).action_log.length = steps.length ∧
      (runMoves (p.new_game side) steps).values_log.length = steps.length ∧
      (runMoves (p.new_game side) steps).board_position_log.length =
        steps.length ∧
      (runMoves (p.new_game side) steps).next_max_log.length =
        steps.length - 1 ∧
      (0 < steps.length →
        (runMoves (p.new_game side) steps).next_max_log.length ≠
          (runMoves (p.new_game side) steps).action_log.length) ∧
      (∀ r p' fit, 0 < steps.length →
        (runMoves (p.new_game side) steps).final_result r =
          Except.ok (p', fit) →
        p'.next_max_log.length = p'.action_log.length) := by
  have ha : (runMoves (p.new_game side) steps).action_log.length =
      steps.length := by
    rw [runMoves_action_log]
    simp [NNQPlayerTF2.new_game]
  have hnm : (runMoves (p.new_game side) steps).next_max_log.length =
      steps.length - 1 := by
    rw [runMoves_next_max_log_of_empty _ _ rfl]
    simp [NNQPlayerTF2.new_game]
  refine ⟨ha, ?_, ?_, hnm, ?_, ?_⟩
  · rw [runMoves_values_log]
    simp [NNQPlayerTF2.new_game]
  · rw [runMoves_board_position_log]
    simp [NNQPlayerTF2.new_game]
  · intro hL
    rw [ha, hnm]
    omega
  · intro r p' fit hL h
    rcases NNQPlayerTF2.final_result_ok_elim _ r (p', fit) h with hc | hc | hc
    all_goals
      show ((p', fit).1).next_max_log.length = ((p', fit).1).action_log.length
    all_goals
      rw [congrArg Prod.fst hc, NNQPlayerTF2.finalResultWith_fst]
    all_goals
      simp [hnm, ha] <;> omega

/-- C6 witness: the two-step sample episode has log lengths 2/2/2 during play
with `next_max_log` one behind (length 1), and equal lengths only after
`final_result`. -/
theorem log_length_invariant_witness :
    (runMoves (demoPlayer.new_game Side.cross) demoSteps).action_log.length =
        demoSteps.length ∧
      (runMoves (demoPlayer.new_game Side.cross)
          demoSteps).next_max_log.length = demoSteps.length - 1 ∧
      demoEpisodeState.next_max_log.length =
        demoEpisodeState.action_log.length := by
  have h := log_length_invariant demoPlayer Side.cross demoSteps
  exact ⟨h.1, h.2.2.2.1, h.2.2.2.2.2 GameResult.crossWin demoEpisodeState
    demoEpisodeFit (by decide) (by rfl)⟩

end TicTacToe
